import Mathlib

/-!
Verification of the AnamorphicEVotingSystem core (ElGamal/elgamal.go and
ElGamal/voting.go) against its specification.

The Go code is embedded shallowly:
* big.Int values are Nat (all group values are non-negative residues) or Int
  where the source can go negative (the vote-blinding arithmetic); big.Int's
  Mod and Div are Euclidean, which is Int.emod / Int.ediv (the `%` and `/`
  of Int here).
* the AES block cipher from crypto/aes, keyed by the 16 random bytes drawn in
  AGen, is an opaque parameter blockEnc : List Nat → List Nat mapping a
  16-byte block to a 16-byte block;
* random draws are supplied as explicit tape arguments; a uniform draw below a
  bound b is modelled as (tape entry) % b, which ranges over exactly the
  values the draw can produce;
* Go's unbounded `for` loop in AEnc consumes a finite tape and yields none
  when the tape is exhausted with the loop still running.
-/

namespace ElGamal

/-- Group parameters from elgamal.go: modulus P, exponent modulus Q, generator G. -/
structure Params where
  P : Nat
  Q : Nat
  G : Nat

/-- Anamorphic parameters from elgamal.go: domain size L, sampling bounds S and T. -/
structure AParams where
  L : Nat
  S : Nat
  T : Nat

/-- modMul from elgamal.go: (a*b) mod m. -/
def modMul (a b m : Nat) : Nat := a * b % m

/-- modExp from elgamal.go: a^e mod m. -/
def modExp (a e m : Nat) : Nat := a ^ e % m

/-- big.Int.ModInverse as used by elgamal.go: the inverse of a modulo p (the
unique representative in [0, p)) when it exists, none otherwise. -/
def modInverse (a p : Nat) : Option Nat :=
  (List.range p).find? fun k => a * k % p == 1

/-- binary.LittleEndian.PutUint64 composed with big.Int.Uint64, as in F: the 8
little-endian bytes of the low 64 bits of v. -/
def putUint64LE (v : Nat) : List Nat :=
  (List.range 8).map fun i => v % 2 ^ 64 / 256 ^ i % 256

/-- Reading a byte list as a little-endian integer (the reverse-then-SetBytes
step of F). -/
def fromBytesLE (bs : List Nat) : Nat :=
  bs.foldr (fun b acc => b + 256 * acc) 0

/-- F from elgamal.go: serialize x and y as 8-byte little-endian words, encrypt
the 16-byte block with the keyed cipher, read the output little-endian and
reduce mod P. -/
def F (pp : Params) (blockEnc : List Nat → List Nat) (x y : Nat) : Nat :=
  fromBytesLE (blockEnc (putUint64LE x ++ putUint64LE y)) % pp.P

/-- KGen from elgamal.go, the random draw below Q supplied through t: the drawn
secret key is t % Q with zero remapped to 1; the public key is G^sk mod P. -/
def KGen (pp : Params) (t : Nat) : Nat × Nat :=
  (if t % pp.Q = 0 then 1 else t % pp.Q,
   modExp pp.G (if t % pp.Q = 0 then 1 else t % pp.Q) pp.P)

/-- Enc from elgamal.go with the random draw supplied through t. The body
computes c0 = msg * pk^r mod p and c1 = g^r mod p, but the return statement is
`return c1, c0, r, nil`, so the first returned component is g^r mod p and the
second is msg * pk^r mod p. -/
def Enc (p q g pk msg t : Nat) : Nat × Nat × Nat :=
  (modExp g (if t % q = 0 then 1 else t % q) p,
   msg * modExp pk (if t % q = 0 then 1 else t % q) p % p,
   if t % q = 0 then 1 else t % q)

/-- Dec from elgamal.go. When ModInverse has no inverse it leaves its receiver
(c1^sk mod p) unchanged, and Dec returns c0 * inv mod p unconditionally. -/
def Dec (pp : Params) (sk c0 c1 : Nat) : Nat :=
  c0 * (match modInverse (modExp c1 sk pp.P) pp.P with
        | some i => i
        | none => modExp c1 sk pp.P) % pp.P

/-- The reverse table built by AGen: the Go map receives T[g^i mod p] = i for
i = 0, …, l−1 in insertion order, so on colliding keys the largest index wins;
lookup of an absent key is none. -/
def AGenAux (pp : Params) : Nat → Nat → Option Nat
  | 0, _ => none
  | l + 1, v => if modExp pp.G l pp.P = v then some l else AGenAux pp l v

/-- AGen from elgamal.go, reverse-table part. The 16 random key bytes select
the opaque block cipher and pk is returned unchanged, so only the table is
modelled. -/
def AGen (l : Nat) (pp : Params) : Nat → Option Nat := AGenAux pp l

/-- AEnc from elgamal.go. Each loop iteration draws x in [0,S) and y in [0,T);
tape entry (tx, ty) models the draws as (tx % S, ty % T). The result is the
ciphertext (c0, c1, r) of the first accepted trial, or none when the finite
tape runs out with the loop still going. -/
def AEnc (app : AParams) (pp : Params) (blockEnc : List Nat → List Nat)
    (pk msg cm : Nat) : List (Nat × Nat) → Option (Nat × Nat × Nat)
  | [] => none
  | (tx, ty) :: rest =>
    if modExp pp.G ((cm + F pp blockEnc (tx % app.S) (ty % app.T)) % pp.Q) pp.P % app.T
        = ty % app.T then
      some
        (modMul msg
          (modExp pk ((cm + F pp blockEnc (tx % app.S) (ty % app.T)) % pp.Q) pp.P) pp.P,
         modExp pp.G ((cm + F pp blockEnc (tx % app.S) (ty % app.T)) % pp.Q) pp.P,
         (cm + F pp blockEnc (tx % app.S) (ty % app.T)) % pp.Q)
    else AEnc app pp blockEnc pk msg cm rest

/-- Number of loop iterations AEnc executes on a given randomness tape. -/
def AEncAttempts (app : AParams) (pp : Params) (blockEnc : List Nat → List Nat)
    (cm : Nat) : List (Nat × Nat) → Nat
  | [] => 0
  | (tx, ty) :: rest =>
    if modExp pp.G ((cm + F pp blockEnc (tx % app.S) (ty % app.T)) % pp.Q) pp.P % app.T
        = ty % app.T then 1
    else 1 + AEncAttempts app pp blockEnc cm rest

/-- One iteration of ADec's search at index x: invert g^(F(x,y)) mod p,
continue (none) when no inverse exists, otherwise look c1 * inv mod p up in
the reverse table. -/
def ADecProbe (pp : Params) (blockEnc : List Nat → List Nat) (T : Nat → Option Nat)
    (c1 y x : Nat) : Option Nat :=
  match modInverse (modExp pp.G (F pp blockEnc x y) pp.P) pp.P with
  | none => none
  | some invG => T (modMul c1 invG pp.P)

/-- ADec's search loop, scanning indices x, x+1, … for fuel steps. -/
def ADecScan (pp : Params) (blockEnc : List Nat → List Nat) (T : Nat → Option Nat)
    (c1 y : Nat) : Nat → Nat → Option Nat
  | _, 0 => none
  | x, fuel + 1 =>
    match ADecProbe pp blockEnc T c1 y x with
    | some val => some val
    | none => ADecScan pp blockEnc T c1 y (x + 1) fuel

/-- ADec from elgamal.go: y = c1 mod T, then brute-force x over [0, S); c0 is
ignored by the source. -/
def ADec (app : AParams) (pp : Params) (blockEnc : List Nat → List Nat)
    (T : Nat → Option Nat) (c0 c1 : Nat) : Option Nat :=
  ADecScan pp blockEnc T c1 (c1 % app.T) 0 app.S

/-- EncodeVote from voting.go: candidates are 1-based; nonpositive candidate
encodes to 0, otherwise base^(candidate−1). -/
def EncodeVote (candidate : Int) (base : Int) : Int :=
  if candidate ≤ 0 then 0 else base ^ (candidate - 1).toNat

/-- DecodeCounts from voting.go: numCandidates digits of total in the given
base, least significant first, via big.Int's Euclidean Mod and Div. -/
def DecodeCounts : Int → Nat → Int → List Int
  | _, 0, _ => []
  | total, k + 1, b => total % b :: DecodeCounts (total / b) k b

/-- The loop of SplitSecret: k random draws followed by the remainder share.
Each Go draw is uniform on [0, remaining+1); tape entry t models it as
t % (remaining + 1). -/
def splitShares : Int → Nat → List Int → List Int
  | remaining, 0, _ => [remaining]
  | remaining, k + 1, tape =>
    (tape.headD 0) % (remaining + 1)
      :: splitShares (remaining - (tape.headD 0) % (remaining + 1)) k tape.tail

/-- SplitSecret from voting.go (meaningful for n ≥ 1: the source writes
parts[n-1], so n = 0 would be out of range). -/
def SplitSecret (r : Int) (n : Nat) (tape : List Int) : List Int :=
  splitShares r (n - 1) tape

/-- ComputeBlindVotes from voting.go: (EncodeVote(vi, base) + r − sum(shares))
mod L with big.Int's Euclidean Mod; pp is unused by the source. -/
def ComputeBlindVotes (vi : Int) (r : Int) (base : Int) (shares : List Int)
    (app : AParams) : Int :=
  (EncodeVote vi base + r - shares.sum) % (app.L : Int)

/-- The signed-reinterpretation step of TallyVotes: subtract S exactly when
b > S/2 (with half = S/2 a Euclidean division, as in the source). -/
def signedRemap (S b : Int) : Int := if S / 2 < b then b - S else b

/-- TallyVotes from voting.go: decrypt each vote with ADec, skip failed
decryptions, remap each recovered value into signed range, sum, and reduce the
total mod L at the end. -/
def TallyVotes (app : AParams) (pp : Params) (blockEnc : List Nat → List Nat)
    (T : Nat → Option Nat) (votes : List (Nat × Nat)) : Int :=
  (votes.foldl (fun total vote =>
      match ADec app pp blockEnc T vote.1 vote.2 with
      | none => total
      | some bi => total + signedRemap (app.L : Int) (bi : Int)) 0) % (app.L : Int)

/-- Value of a little-endian digit list in a given base (used to relate sums of
encoded votes to DecodeCounts). -/
def ofDigitsZ (b : Int) : List Int → Int
  | [] => 0
  | d :: ds => d + b * ofDigitsZ b ds

/-- A block cipher whose output is the zero block, so F is identically 0. -/
def encZero : List Nat → List Nat := fun _ => List.replicate 16 0

/-- A block cipher under which F(0, 2) = 1 and F(x, y) = 0 on every other pair
of values below 2^64. -/
def encC1 : List Nat → List Nat :=
  fun bs =>
    if bs = putUint64LE 0 ++ putUint64LE 2 then 1 :: List.replicate 15 0
    else List.replicate 16 0

/-! ### Secret sharing: helper lemmas and claim C4 -/

theorem splitShares_sum (k : Nat) : ∀ (remaining : Int) (tape : List Int),
    (splitShares remaining k tape).sum = remaining := by
  induction k with
  | zero => intro remaining tape; simp [splitShares]
  | succ k ih =>
    intro remaining tape
    simp only [splitShares, List.sum_cons, ih]
    omega

theorem splitShares_length (k : Nat) : ∀ (remaining : Int) (tape : List Int),
    (splitShares remaining k tape).length = k + 1 := by
  induction k with
  | zero => intro remaining tape; simp [splitShares]
  | succ k ih =>
    intro remaining tape
    simp [splitShares, ih]

theorem SplitSecret_length (r : Int) (n : Nat) (tape : List Int) (hn : 1 ≤ n) :
    (SplitSecret r n tape).length = n := by
  have h := splitShares_length (n - 1) r tape
  unfold SplitSecret
  omega

/-- Claim C4: for every n ≥ 1 and secret r ≥ 0, the n shares returned by
SplitSecret sum to r exactly, over the integers. -/
theorem C4_split_secret_sum (r : Int) (n : Nat) (tape : List Int)
    (hn : 1 ≤ n) (hr : 0 ≤ r) : (SplitSecret r n tape).sum = r :=
  splitShares_sum (n - 1) r tape

theorem C4_split_secret_sum_witness :
    SplitSecret 5 2 [3] = [3, 2] ∧ (SplitSecret 5 2 [3]).sum = 5 :=
  ⟨by decide, C4_split_secret_sum 5 2 [3] (by decide) (by decide)⟩

/-! ### Claim C9: range of ComputeBlindVotes -/

/-- Claim C9: for every candidate, randomness, base, share list and L > 0,
ComputeBlindVotes lands in [0, L): the final reduction is a Euclidean mod, so
the result is non-negative even when the blinded value is negative before the
reduction. -/
theorem C9_blind_vote_range (vi r base : Int) (shares : List Int) (app : AParams)
    (hL : 0 < app.L) :
    0 ≤ ComputeBlindVotes vi r base shares app ∧
      ComputeBlindVotes vi r base shares app < (app.L : Int) := by
  have hL' : (0 : Int) < (app.L : Int) := by exact_mod_cast hL
  exact ⟨Int.emod_nonneg _ (ne_of_gt hL'), Int.emod_lt_of_pos _ hL'⟩

theorem C9_blind_vote_range_witness :
    EncodeVote 1 6 + 0 - ([5] : List Int).sum = -4 ∧
    ComputeBlindVotes 1 0 6 [5] ⟨10, 10, 10⟩ = 6 ∧
    (0 ≤ ComputeBlindVotes 1 0 6 [5] ⟨10, 10, 10⟩ ∧
      ComputeBlindVotes 1 0 6 [5] ⟨10, 10, 10⟩ < ((10 : Nat) : Int)) :=
  ⟨by decide, by decide, C9_blind_vote_range 1 0 6 [5] ⟨10, 10, 10⟩ (by decide)⟩

/-! ### Claim C10: F truncates its inputs to 64 bits -/

/-- Claim C10: F depends only on the low 64 bits of its integer inputs — the
Uint64 serialization truncates instead of rejecting values of 2^64 or more. -/
theorem C10_F_truncates (pp : Params) (blockEnc : List Nat → List Nat) (x y : Nat) :
    F pp blockEnc x y = F pp blockEnc (x % 2 ^ 64) (y % 2 ^ 64) := by
  unfold F putUint64LE
  rw [Nat.mod_mod_of_dvd x dvd_rfl, Nat.mod_mod_of_dvd y dvd_rfl]

/-! ### Claim C8: Dec on a missing modular inverse -/

/-- Claim C8 counterexample: with p = 23 and sk = 3, the input c1 = 0 makes
c1^sk mod p non-invertible, yet Dec returns the ordinary value 0 — the same
value a successful decryption (c0 = 0, c1 = 1, inverse exists) produces, so
nothing distinguishes the failure from a normal plaintext result. -/
theorem C8_counterexample :
    modInverse (modExp 0 3 23) 23 = none ∧
    Dec ⟨23, 11, 2⟩ 3 5 0 = 0 ∧
    modInverse (modExp 1 3 23) 23 = some 1 ∧
    Dec ⟨23, 11, 2⟩ 3 0 1 = 0 := by decide

/-- Claim C8 amended: when the modular inverse of c1^sk mod p does not exist,
Dec keeps the non-inverted value (ModInverse leaves its receiver unchanged) and
returns c0 * (c1^sk mod p) mod p as an ordinary plaintext value; no distinct
error is surfaced. -/
theorem C8_amended (pp : Params) (sk c0 c1 : Nat)
    (h : modInverse (modExp c1 sk pp.P) pp.P = none) :
    Dec pp sk c0 c1 = c0 * modExp c1 sk pp.P % pp.P := by
  unfold Dec
  rw [h]

theorem C8_amended_witness :
    Dec ⟨23, 11, 2⟩ 3 5 0 = 5 * modExp 0 3 23 % 23 :=
  C8_amended ⟨23, 11, 2⟩ 3 5 0 (by decide)

/-! ### Claim C7: signed reinterpretation in TallyVotes -/

/-- Claim C7 counterexample: with L = 10 the recovered value b = 5 lies in
[0, L) and is not remapped (5 > L/2 is false), so the signed value is
5 = L/2, which is not in the half-open interval [−L/2, L/2). -/
theorem C7_counterexample :
    (0 : Int) ≤ 5 ∧ (5 : Int) < 10 ∧ signedRemap 10 5 = 5 ∧
    ¬ (2 * signedRemap 10 5 < (10 : Int)) := by decide

/-- Claim C7 amended: every recovered b in [0, L) is reinterpreted as signed by
subtracting L exactly when b > L/2, the resulting signed value lies in the
interval (−L/2, L/2] — open below, closed above — and the final total is
reduced mod L back into [0, L). -/
theorem C7_amended (app : AParams) (pp : Params) (blockEnc : List Nat → List Nat)
    (T : Nat → Option Nat) (votes : List (Nat × Nat)) (b : Int)
    (hL : 0 < (app.L : Int)) (hb0 : 0 ≤ b) (hbL : b < (app.L : Int)) :
    (-(app.L : Int) < 2 * signedRemap (app.L : Int) b ∧
      2 * signedRemap (app.L : Int) b ≤ (app.L : Int)) ∧
    (0 ≤ TallyVotes app pp blockEnc T votes ∧
      TallyVotes app pp blockEnc T votes < (app.L : Int)) := by
  constructor
  · unfold signedRemap
    split <;> omega
  · exact ⟨Int.emod_nonneg _ (ne_of_gt hL), Int.emod_lt_of_pos _ hL⟩

theorem C7_amended_witness :
    ((-((10 : Nat) : Int) < 2 * signedRemap ((10 : Nat) : Int) 5 ∧
      2 * signedRemap ((10 : Nat) : Int) 5 ≤ ((10 : Nat) : Int)) ∧
     (0 ≤ TallyVotes ⟨10, 10, 10⟩ ⟨23, 11, 2⟩ encZero (fun _ => none) [] ∧
      TallyVotes ⟨10, 10, 10⟩ ⟨23, 11, 2⟩ encZero (fun _ => none) [] < ((10 : Nat) : Int))) :=
  C7_amended ⟨10, 10, 10⟩ ⟨23, 11, 2⟩ encZero (fun _ => none) [] 5
    (by decide) (by decide) (by decide)

/-! ### Claim C3: order of the values returned by Enc -/

/-- Claim C3: with p = 23, q = 11, g = 2, the KGen pair (sk, pk) = (3, 8),
message 5 and randomness draw 4, Enc returns (16, 10, 4) = (g^r, msg·pk^r, r):
the first two returned values are swapped relative to Enc's own doc comment
and named results. Dec applied to the values in returned order gives 14 ≠ 5,
while Dec applied to the swapped pair recovers the message 5. -/
theorem C3_enc_returns_swapped :
    KGen ⟨23, 11, 2⟩ 3 = (3, 8) ∧
    Enc 23 11 2 8 5 4 = (16, 10, 4) ∧
    modExp 2 4 23 = 16 ∧ 5 * modExp 8 4 23 % 23 = 10 ∧
    Dec ⟨23, 11, 2⟩ 3 16 10 = 14 ∧
    Dec ⟨23, 11, 2⟩ 3 10 16 = 5 := by decide

/-! ### Claim C5: the AEnc loop has no iteration bound -/

theorem AEnc_cons_reject (app : AParams) (pp : Params) (blockEnc : List Nat → List Nat)
    (pk msg cm tx ty : Nat) (rest : List (Nat × Nat))
    (h : ¬ modExp pp.G ((cm + F pp blockEnc (tx % app.S) (ty % app.T)) % pp.Q) pp.P % app.T
        = ty % app.T) :
    AEnc app pp blockEnc pk msg cm ((tx, ty) :: rest) = AEnc app pp blockEnc pk msg cm rest ∧
    AEncAttempts app pp blockEnc cm ((tx, ty) :: rest)
      = 1 + AEncAttempts app pp blockEnc cm rest := by
  constructor
  · simp only [AEnc]
    rw [if_neg h]
  · simp only [AEncAttempts]
    rw [if_neg h]

theorem AEncAttempts_replicate (n : Nat) :
    AEncAttempts ⟨2, 2, 2⟩ ⟨23, 11, 2⟩ encZero 0 (List.replicate n (0, 0)) = n ∧
    AEnc ⟨2, 2, 2⟩ ⟨23, 11, 2⟩ encZero 0 0 0 (List.replicate n (0, 0)) = none := by
  induction n with
  | zero => exact ⟨rfl, rfl⟩
  | succ n ih =>
    rw [List.replicate_succ]
    have hstep := AEnc_cons_reject ⟨2, 2, 2⟩ ⟨23, 11, 2⟩ encZero 0 0 0 0 0
      (List.replicate n (0, 0)) (by decide)
    refine ⟨?_, ?_⟩
    · rw [hstep.2, ih.1]
      omega
    · rw [hstep.1]
      exact ih.2

/-- Claim C5 counterexample: no attempt bound exists — for every candidate
bound B some run of AEnc's rejection-sampling loop performs more than B failed
iterations (so the implementation cannot be enforcing a maximum-attempt
guard). -/
theorem C5_counterexample :
    ¬ ∃ B : Nat, ∀ tape : List (Nat × Nat),
        AEncAttempts ⟨2, 2, 2⟩ ⟨23, 11, 2⟩ encZero 0 tape ≤ B := by
  rintro ⟨B, hB⟩
  have h1 := (AEncAttempts_replicate (B + 1)).1
  have h2 := hB (List.replicate (B + 1) (0, 0))
  omega

/-- Claim C5 amended: AEnc's rejection-sampling loop has no iteration bound and
no failure value: on a tape of n rejected trials it runs all n iterations and
is still looping (none); the implementation has no maximum-attempt guard and no
AnamorphicEncodingExhausted outcome, relying on probabilistic termination. -/
theorem C5_amended (n : Nat) :
    AEncAttempts ⟨2, 2, 2⟩ ⟨23, 11, 2⟩ encZero 0 (List.replicate n (0, 0)) = n ∧
    AEnc ⟨2, 2, 2⟩ ⟨23, 11, 2⟩ encZero 0 0 0 (List.replicate n (0, 0)) = none :=
  AEncAttempts_replicate n

/-! ### Claim C2: the blinding terms cancel in the tally -/

theorem sum_getD_eq_sum (l : List Int) (n : Nat) (h : l.length = n) :
    ∑ i : Fin n, l.getD (i : Nat) 0 = l.sum := by
  subst h
  calc ∑ i : Fin l.length, l.getD (i : Nat) 0
      = ∑ i : Fin l.length, l.get i :=
        Finset.sum_congr rfl fun i _ => List.getD_eq_get l 0 i.isLt
    _ = (List.ofFn l.get).sum := List.sum_ofFn.symm
    _ = l.sum := by rw [List.ofFn_get]

/-- Claim C2: with n ≥ 1 voters, each voter j holding personal randomness r j
split by SplitSecret into n shares of which voter i receives the i-th, the sum
of all blinded votes is congruent mod L to the sum of the encoded votes: the
random terms cancel exactly. -/
theorem C2_cancellation (n : Nat) (hn : 1 ≤ n) (cand r : Fin n → Int)
    (tape : Fin n → List Int) (base : Int) (app : AParams) (hL : 0 < app.L) :
    Int.ModEq (app.L : Int)
      (∑ i : Fin n, ComputeBlindVotes (cand i) (r i) base
          (List.ofFn fun j : Fin n => (SplitSecret (r j) n (tape j)).getD (i : Nat) 0) app)
      (∑ i : Fin n, EncodeVote (cand i) base) := by
  have hsplit : ∀ j : Fin n,
      ∑ i : Fin n, (SplitSecret (r j) n (tape j)).getD (i : Nat) 0 = r j := by
    intro j
    rw [sum_getD_eq_sum _ n (SplitSecret_length _ _ _ hn)]
    exact splitShares_sum _ _ _
  have hkey : (∑ i : Fin n, (EncodeVote (cand i) base + r i -
        (List.ofFn fun j : Fin n => (SplitSecret (r j) n (tape j)).getD (i : Nat) 0).sum))
      = ∑ i : Fin n, EncodeVote (cand i) base := by
    simp only [List.sum_ofFn]
    rw [Finset.sum_sub_distrib, Finset.sum_add_distrib, Finset.sum_comm]
    rw [Finset.sum_congr rfl fun j _ => hsplit j]
    ring
  show _ % _ = _ % _
  simp only [ComputeBlindVotes]
  rw [← Finset.sum_int_mod, hkey]

theorem C2_cancellation_witness :
    Int.ModEq ((10 : Nat) : Int)
      (∑ i : Fin 1, ComputeBlindVotes 2 7 6
          (List.ofFn fun _ : Fin 1 => (SplitSecret 7 1 []).getD (i : Nat) 0) ⟨10, 10, 10⟩)
      (∑ _i : Fin 1, EncodeVote 2 6) :=
  C2_cancellation 1 (by decide) (fun _ => 2) (fun _ => 7) (fun _ => []) 6 ⟨10, 10, 10⟩
    (by decide)

/-! ### Claim C6: DecodeCounts inverts summed EncodeVote -/

theorem DecodeCounts_ofDigits (b : Int) (ds : List Int)
    (hd : ∀ d ∈ ds, 0 ≤ d ∧ d < b) :
    DecodeCounts (ofDigitsZ b ds) ds.length b = ds := by
  induction ds with
  | nil => rfl
  | cons d ds ih =>
    obtain ⟨hd0, hdb⟩ := hd d (List.mem_cons_self d ds)
    have hb : (0 : Int) < b := lt_of_le_of_lt hd0 hdb
    simp only [ofDigitsZ, List.length_cons, DecodeCounts]
    rw [Int.add_mul_emod_self_left, Int.emod_eq_of_lt hd0 hdb,
        Int.add_mul_ediv_left d _ (ne_of_gt hb), Int.ediv_eq_zero_of_lt hd0 hdb, zero_add,
        ih fun x hx => hd x (List.mem_cons_of_mem d hx)]

theorem ofDigitsZ_ofFn (b : Int) : ∀ (k : Nat) (f : Fin k → Int),
    ofDigitsZ b (List.ofFn f) = ∑ i : Fin k, f i * b ^ (i : Nat) := by
  intro k
  induction k with
  | zero => intro f; simp [ofDigitsZ]
  | succ k ih =>
    intro f
    rw [List.ofFn_succ]
    simp only [ofDigitsZ]
    rw [ih, Fin.sum_univ_succ]
    simp only [Fin.val_zero, pow_zero, mul_one, Fin.val_succ, pow_succ]
    rw [Finset.mul_sum]
    exact congrArg (f 0 + ·) (Finset.sum_congr rfl fun i _ => by ring)

theorem encode_sum_eq_count_sum (votes : List Int)
    (hv : ∀ v ∈ votes, 1 ≤ v ∧ v ≤ 8) :
    (votes.map fun v => EncodeVote v 6).sum
      = ∑ i : Fin 8, ((votes.count (((i : Nat) : Int) + 1) : Int)) * 6 ^ (i : Nat) := by
  induction votes with
  | nil => simp
  | cons v rest ih =>
    obtain ⟨h1, h8⟩ := hv v (List.mem_cons_self v rest)
    have hcount : ∀ x : Int, (((v :: rest).count x : Nat) : Int)
        = ((rest.count x : Nat) : Int) + if v = x then 1 else 0 := by
      intro x
      rw [List.count_cons]
      by_cases h : v = x
      · simp [h]
      · simp [h]
    simp only [List.map_cons, List.sum_cons, ih fun w hw => hv w (List.mem_cons_of_mem v hw)]
    have hsplit : ∑ i : Fin 8, (((v :: rest).count (((i : Nat) : Int) + 1) : Nat) : Int) * 6 ^ (i : Nat)
        = ∑ i : Fin 8, (((rest.count (((i : Nat) : Int) + 1) : Nat) : Int) * 6 ^ (i : Nat)
            + (if v = ((i : Nat) : Int) + 1 then 1 else 0) * 6 ^ (i : Nat)) := by
      refine Finset.sum_congr rfl fun i _ => ?_
      rw [hcount]; ring
    rw [hsplit, Finset.sum_add_distrib]
    have hlt : (v - 1).toNat < 8 := by omega
    have hind : ∑ i : Fin 8, (if v = ((i : Nat) : Int) + 1 then (1 : Int) else 0) * 6 ^ (i : Nat)
        = EncodeVote v 6 := by
      rw [Finset.sum_eq_single (⟨(v - 1).toNat, hlt⟩ : Fin 8)]
      · rw [if_pos (by simp only [Fin.val_mk]; omega), one_mul]
        simp only [EncodeVote, Fin.val_mk]
        rw [if_neg (by omega)]
      · intro i _ hne
        rw [if_neg, zero_mul]
        intro he
        exact hne (Fin.ext (by simp only [Fin.val_mk]; omega))
      · intro habs
        exact absurd (Finset.mem_univ _) habs
    rw [hind]
    exact add_comm _ _

/-- Claim C6: over 8 candidates with base 6, if no candidate's vote count
reaches 6, DecodeCounts applied to the sum of the encoded chosen candidates
returns exactly the per-candidate counts, least-significant digit first. -/
theorem C6_encode_decode_inverse (votes : List Int)
    (hv : ∀ v ∈ votes, 1 ≤ v ∧ v ≤ 8)
    (hcount : ∀ c : Int, votes.count c < 6) :
    DecodeCounts ((votes.map fun v => EncodeVote v 6).sum) 8 6
      = List.ofFn fun i : Fin 8 => ((votes.count (((i : Nat) : Int) + 1) : Nat) : Int) := by
  have hdig : ∀ d ∈ (List.ofFn fun i : Fin 8 => ((votes.count (((i : Nat) : Int) + 1) : Nat) : Int)),
      0 ≤ d ∧ d < 6 := by
    intro d hd
    rw [List.mem_ofFn] at hd
    obtain ⟨i, rfl⟩ := hd
    refine ⟨Nat.cast_nonneg _, ?_⟩
    show ((votes.count (((i : Nat) : Int) + 1) : Nat) : Int) < 6
    exact_mod_cast hcount _
  have h8 : (List.ofFn fun i : Fin 8 => ((votes.count (((i : Nat) : Int) + 1) : Nat) : Int)).length = 8 :=
    List.length_ofFn _
  rw [encode_sum_eq_count_sum votes hv, ← ofDigitsZ_ofFn 6 8 _]
  have hh := DecodeCounts_ofDigits 6 _ hdig
  rw [h8] at hh
  exact hh

theorem C6_encode_decode_inverse_witness :
    (DecodeCounts ((([1, 1, 3] : List Int).map fun v => EncodeVote v 6).sum) 8 6
      = List.ofFn fun i : Fin 8 => ((([1, 1, 3] : List Int).count (((i : Nat) : Int) + 1) : Nat) : Int)) ∧
    DecodeCounts ((([1, 1, 3] : List Int).map fun v => EncodeVote v 6).sum) 8 6
      = [2, 0, 1, 0, 0, 0, 0, 0] :=
  ⟨C6_encode_decode_inverse [1, 1, 3] (by decide)
      (fun c => lt_of_le_of_lt (List.count_le_length c [1, 1, 3]) (by decide)),
    by decide⟩

/-! ### Claim C1: the anamorphic round trip -/

theorem modExp_exponent_mod (g q p a : Nat) (hp : 2 ≤ p)
    (hord : modExp g q p = 1) : modExp g (a % q) p = modExp g a p := by
  rcases Nat.eq_zero_or_pos q with hq | hq
  · rw [hq, Nat.mod_zero]
  · unfold modExp at hord ⊢
    have h1 : g ^ a % p = (g ^ q) ^ (a / q) * g ^ (a % q) % p := by
      rw [← pow_mul, ← pow_add, Nat.div_add_mod]
    rw [h1, Nat.mul_mod, Nat.pow_mod (g ^ q) (a / q) p, hord, one_pow,
        Nat.mod_eq_of_lt (show 1 < p by omega), one_mul, Nat.mod_mod_of_dvd _ dvd_rfl]

theorem modInverse_mul (a p k : Nat) (h : modInverse a p = some k) :
    a * k % p = 1 := by
  have h1 := List.find?_some h
  simpa using h1

theorem modInverse_isSome (a p : Nat) (hp : 2 ≤ p) (h : Nat.Coprime a p) :
    ∃ k, modInverse a p = some k := by
  cases hfind : modInverse a p with
  | some k => exact ⟨k, rfl⟩
  | none =>
    exfalso
    obtain ⟨m, hm⟩ := Nat.exists_mul_emod_eq_one_of_coprime h (by omega)
    have hmem : m % p ∈ List.range p := List.mem_range.mpr (Nat.mod_lt m (by omega))
    have hnone := List.find?_eq_none.mp hfind _ hmem
    have hmp : a * (m % p) % p = 1 := by
      rw [Nat.mul_mod a (m % p) p, Nat.mod_mod_of_dvd m dvd_rfl, ← Nat.mul_mod]
      exact hm
    exact hnone (by simp [hmp])

theorem AGen_lookup (pp : Params) (l : Nat)
    (hinj : ∀ i, i < l → ∀ j, j < l → modExp pp.G i pp.P = modExp pp.G j pp.P → i = j)
    (i : Nat) (hi : i < l) : AGen l pp (modExp pp.G i pp.P) = some i := by
  unfold AGen
  induction l with
  | zero => omega
  | succ l ih =>
    simp only [AGenAux]
    by_cases hil : i = l
    · subst hil
      rw [if_pos rfl]
    · rw [if_neg fun he => hil (hinj l (by omega) i (by omega) he).symm]
      exact ih (fun a ha b hb hab => hinj a (by omega) b (by omega) hab) (by omega)

theorem ADecScan_finds (pp : Params) (blockEnc : List Nat → List Nat)
    (T : Nat → Option Nat) (c1 y cm : Nat) :
    ∀ (fuel x0 : Nat),
      (∀ x, x0 ≤ x → x < x0 + fuel →
        ADecProbe pp blockEnc T c1 y x = none ∨ ADecProbe pp blockEnc T c1 y x = some cm) →
      (∃ x, x0 ≤ x ∧ x < x0 + fuel ∧ ADecProbe pp blockEnc T c1 y x = some cm) →
      ADecScan pp blockEnc T c1 y x0 fuel = some cm := by
  intro fuel
  induction fuel with
  | zero =>
    intro x0 _ hex
    obtain ⟨x, h1, h2, _⟩ := hex
    omega
  | succ fuel ih =>
    intro x0 hall hex
    simp only [ADecScan]
    rcases hall x0 (le_refl x0) (by omega) with h | h
    · rw [h]
      apply ih (x0 + 1) (fun x hx1 hx2 => hall x (by omega) (by omega))
      obtain ⟨x, hx1, hx2, hx3⟩ := hex
      refine ⟨x, ?_, by omega, hx3⟩
      rcases Nat.eq_or_lt_of_le hx1 with heq | hlt
      · exfalso
        rw [← heq] at hx3
        rw [h] at hx3
        exact Option.noConfusion hx3
      · omega
    · rw [h]

theorem AEnc_accepted (app : AParams) (pp : Params) (blockEnc : List Nat → List Nat)
    (pk msg cm : Nat) :
    ∀ (tape : List (Nat × Nat)) (c0 c1 r : Nat),
      AEnc app pp blockEnc pk msg cm tape = some (c0, c1, r) →
      ∃ x y, (0 < app.S → x < app.S) ∧
        r = (cm + F pp blockEnc x y) % pp.Q ∧
        c1 = modExp pp.G r pp.P ∧
        modExp pp.G r pp.P % app.T = y ∧
        c0 = modMul msg (modExp pk r pp.P) pp.P := by
  intro tape
  induction tape with
  | nil =>
    intro c0 c1 r h
    exact absurd h (by simp [AEnc])
  | cons hd rest ih =>
    intro c0 c1 r h
    obtain ⟨tx, ty⟩ := hd
    by_cases hacc : modExp pp.G
        ((cm + F pp blockEnc (tx % app.S) (ty % app.T)) % pp.Q) pp.P % app.T = ty % app.T
    · simp only [AEnc, if_pos hacc, Option.some.injEq, Prod.mk.injEq] at h
      obtain ⟨h0, h1, h2⟩ := h
      refine ⟨tx % app.S, ty % app.T, fun hS => Nat.mod_lt tx hS, h2.symm, ?_, ?_, ?_⟩
      · rw [← h2]
        exact h1.symm
      · rw [← h2]
        exact hacc
      · rw [← h2]
        exact h0.symm
    · simp only [AEnc, if_neg hacc] at h
      exact ih c0 c1 r h

/-- Claim C1 counterexample: at p = 23, q = 11, g = 2, L = S = T = 4, public key
8, cover message 7 and hidden message 1, there is a symmetric key (block cipher
giving F(0,2) = 1 and F(1,2) = 0) under which AEnc accepts the trial (x, y) =
(1, 2) producing ciphertext (10, 2) with r = 1, yet ADec's scan hits the
reverse table already at x = 0 and returns the wrong hidden message 0. -/
theorem C1_counterexample :
    AEnc ⟨4, 4, 4⟩ ⟨23, 11, 2⟩ encC1 8 7 1 [(1, 2)] = some (10, 2, 1) ∧
    ADec ⟨4, 4, 4⟩ ⟨23, 11, 2⟩ encC1 (AGen 4 ⟨23, 11, 2⟩) 10 2 = some 0 ∧
    ADec ⟨4, 4, 4⟩ ⟨23, 11, 2⟩ encC1 (AGen 4 ⟨23, 11, 2⟩) 10 2 ≠ some 1 := by decide

/-- Claim C1 amended: the anamorphic round trip ADec ∘ AEnc = hiddenMessage
holds for hiddenMessage < L under the side conditions the code actually needs:
p ≥ 2, S > 0, g coprime to p, g^q ≡ 1 mod p, the reverse table collision-free
on [0, L) (i ↦ g^i mod p injective), and no probed scan index producing a
spurious reverse-table hit different from the hidden message. With a
pseudorandom F these conditions fail only with negligible probability, but not
for every symmetric key, as the counterexample shows. -/
theorem C1_roundtrip_amended (app : AParams) (pp : Params)
    (blockEnc : List Nat → List Nat) (pk msg cm : Nat) (tape : List (Nat × Nat))
    (c0 c1 r : Nat)
    (hp : 2 ≤ pp.P) (hS : 0 < app.S) (hg : Nat.Coprime pp.G pp.P)
    (hord : modExp pp.G pp.Q pp.P = 1) (hcm : cm < app.L)
    (hinj : ∀ i, i < app.L → ∀ j, j < app.L →
      modExp pp.G i pp.P = modExp pp.G j pp.P → i = j)
    (henc : AEnc app pp blockEnc pk msg cm tape = some (c0, c1, r))
    (hclean : ∀ x, x < app.S →
      ADecProbe pp blockEnc (AGen app.L pp) c1 (c1 % app.T) x = none ∨
      ADecProbe pp blockEnc (AGen app.L pp) c1 (c1 % app.T) x = some cm) :
    ADec app pp blockEnc (AGen app.L pp) c0 c1 = some cm := by
  obtain ⟨x, y, hx, hr, hc1, hy, _hc0⟩ :=
    AEnc_accepted app pp blockEnc pk msg cm tape c0 c1 r henc
  have hxS : x < app.S := hx hS
  have hyy : c1 % app.T = y := by
    rw [hc1]
    exact hy
  have hprobe : ADecProbe pp blockEnc (AGen app.L pp) c1 (c1 % app.T) x = some cm := by
    rw [hyy]
    have hco : Nat.Coprime (modExp pp.G (F pp blockEnc x y) pp.P) pp.P := by
      have h2 : Nat.Coprime (pp.G ^ F pp blockEnc x y) pp.P := Nat.Coprime.pow_left _ hg
      have h3 : Nat.gcd pp.P (pp.G ^ F pp blockEnc x y)
          = Nat.gcd (pp.G ^ F pp blockEnc x y % pp.P) pp.P := Nat.gcd_rec _ _
      unfold Nat.Coprime at h2 ⊢
      unfold modExp
      rw [← h3, Nat.gcd_comm]
      exact h2
    obtain ⟨k, hk⟩ := modInverse_isSome _ _ hp hco
    have hmul := modInverse_mul _ _ _ hk
    have hgr : c1 = modExp pp.G (cm + F pp blockEnc x y) pp.P := by
      rw [hc1, hr]
      exact modExp_exponent_mod pp.G pp.Q pp.P (cm + F pp blockEnc x y) hp hord
    have hsval : modMul c1 k pp.P = modExp pp.G cm pp.P := by
      have hmul' : pp.G ^ F pp blockEnc x y % pp.P * k % pp.P = 1 := hmul
      show c1 * k % pp.P = pp.G ^ cm % pp.P
      rw [hgr]
      show pp.G ^ (cm + F pp blockEnc x y) % pp.P * k % pp.P = pp.G ^ cm % pp.P
      rw [Nat.mod_mul_mod, pow_add, mul_assoc, Nat.mul_mod (pp.G ^ cm) _ pp.P]
      have ht : pp.G ^ F pp blockEnc x y * k % pp.P = 1 := by
        rw [← Nat.mod_mul_mod]
        exact hmul'
      rw [ht, mul_one, Nat.mod_mod_of_dvd _ dvd_rfl]
    simp only [ADecProbe, hk]
    rw [hsval]
    exact AGen_lookup pp app.L hinj cm hcm
  unfold ADec
  apply ADecScan_finds pp blockEnc (AGen app.L pp) c1 (c1 % app.T) cm app.S 0
  · intro x' _hx1 hx2
    exact hclean x' (by omega)
  · exact ⟨x, Nat.zero_le x, by omega, hprobe⟩

theorem C1_roundtrip_amended_witness :
    ADec ⟨4, 4, 4⟩ ⟨23, 11, 2⟩ encZero (AGen 4 ⟨23, 11, 2⟩) 10 2 = some 1 :=
  C1_roundtrip_amended ⟨4, 4, 4⟩ ⟨23, 11, 2⟩ encZero 8 7 1 [(1, 2)] 10 2 1
    (by decide) (by decide) (by decide) (by decide) (by decide) (by decide)
    (by decide) (by decide)

end ElGamal
